import Mathlib

/-!
Shallow embedding of `proxy-cache` (src/lib/index.js), a caching decorator
for an object's asynchronous callback-style methods.

Modelling choices:
* JS values are `Val`: primitives plus `ref a`, a reference into an explicit
  heap of plain objects (`Heap`), so that aliasing and mutation are visible.
* The single-threaded event loop is modelled by an explicit state `PCState`:
  the synchronous body of a wrapped call is one step (`callStep`), the
  completion callback pushed onto the upstream arguments is another
  (`completeStep`), and `setImmediate`-deferred deliveries sit in a `ticks`
  queue drained by `runTicks`.
* The LRU store is external to this repository; the claims under proof only
  use its `has`/`get`/`peek`/`set`/`length` surface, modelled as an
  association list (`get` and `peek` return the same entry; the recency
  bookkeeping they differ in is not observed by any claim).
* Metrics calls are logged in order into `PCState.metrics`.
* Callbacks are identified by numeric ids; an `Invocation` records a callback
  being called with `(err, result)`.
-/

set_option autoImplicit false

/-- JS values: `undefined`, `null`, primitives, and references to heap objects. -/
inductive Val where
  | undef
  | vnull
  | bool (b : Bool)
  | num (n : Int)
  | str (s : String)
  | ref (a : Nat)
deriving DecidableEq, Repr

/-- A plain JS object: an ordered list of (field, value) pairs. -/
abbrev Obj := List (String × Val)

/-- The heap: objects addressed by their index; allocation appends. -/
abbrev Heap := List Obj

/-- Set a key in an association list, overwriting an existing binding in place
or appending a new one. Used for object fields, the cache and the in-flight map. -/
def assocSet {α : Type} (l : List (String × α)) (k : String) (v : α) : List (String × α) :=
  match l with
  | [] => [(k, v)]
  | (k', v') :: rest => if k' = k then (k, v) :: rest else (k', v') :: assocSet rest k v

/-- Look a key up in an association list (first binding wins), the model of
JS property lookup on our plain objects and maps. -/
def assocGet {α : Type} (l : List (String × α)) (k : String) : Option α :=
  match l with
  | [] => none
  | (k', v) :: rest => if k' = k then some v else assocGet rest k

/-- Mutate field `f` of the object at address `a` (a no-op on a dangling address,
which never arises in the modelled traces). -/
def setField (h : Heap) (a : Nat) (f : String) (v : Val) : Heap :=
  h.set a (assocSet (h.getD a []) f v)

/-- Read field `f` of the object at address `a`. -/
def readField (h : Heap) (a : Nat) (f : String) : Option Val :=
  (h.get? a).bind (fun o => assocGet o f)

/-- Allocate a fresh object on the heap, returning the new state of the heap and
a reference to it. Models the upstream method constructing its result object. -/
def allocObj (h : Heap) (o : Obj) : Heap × Val :=
  (h ++ [o], Val.ref h.length)

/-- Translation of `clone(v, true, 1)` as used by `_get`: a depth-1 clone.
A reference is replaced by a reference to a freshly allocated object carrying
the same field list (so nested references are shared); primitives are returned
unchanged and leave the heap alone. -/
def cloneDepth1 (h : Heap) (v : Val) : Heap × Val :=
  match v with
  | Val.ref a => (h ++ [h.getD a []], Val.ref h.length)
  | v => (h, v)

/-- How `Array.prototype.join` stringifies an element: `undefined` and `null`
become the empty string, plain objects become "[object Object]". -/
def jsJoinStr : Val → String
  | Val.undef => ""
  | Val.vnull => ""
  | Val.bool b => if b then "true" else "false"
  | Val.num n => toString n
  | Val.str s => s
  | Val.ref _ => "[object Object]"

/-- Helper for `_key`: the left-to-right accumulation performed by
`[method].concat(args).join(':')` once the initial element is in hand. -/
def joinFrom : String → List Val → String
  | acc, [] => acc
  | acc, v :: rest => joinFrom (acc ++ ":" ++ jsJoinStr v) rest

/-- Translation of `ProxyCache.prototype._key`:
`[method].concat(args).join(':')`. -/
def pcKey (method : String) (args : List Val) : String :=
  joinFrom method args

/-- Modelled from the spec (for comparison with the source in C6): the key as
"the method name and the stringified arguments joined with the fixed
separator ':'". -/
def specKeyJoin (method : String) (args : List Val) : String :=
  method ++ (args.map (fun v => ":" ++ jsJoinStr v)).foldr (fun a b => a ++ b) ""

/-- Translation of the presence test `result != undefined` (JS loose
inequality, under which `null == undefined`): false exactly on `undefined`
and `null`. -/
def loosePresent : Val → Bool
  | Val.undef => false
  | Val.vnull => false
  | _ => true

/-- Modelled from the spec (for comparison with the source in C4): a result
"is defined" read strictly, i.e. the value is not `undefined`. -/
def specDefined (v : Val) : Bool :=
  v ≠ Val.undef

/-- Cache surface used by the code: `has` is `cache.has(key)`. -/
def cacheHas (c : List (String × Val)) (k : String) : Bool :=
  (assocGet c k).isSome

/-- Cache surface used by the code: `set` is `cache.set(key, value)`. -/
def cacheSet (c : List (String × Val)) (k : String) (v : Val) : List (String × Val) :=
  assocSet c k v

/-- One metrics call, tagged with the method name (the code's
`tags = ['method:' + method]`). -/
inductive Metric where
  | callsIncr (method : String)
  | sizeGauge (n : Nat) (method : String)
  | hitIncr (method : String)
  | missIncr (method : String)
  | durationTimer (method : String)
deriving DecidableEq, Repr

/-- A callback invocation: callback `cb` called with `(err, res)`. On the error
path the code calls `fn(err)`, so `res` is `undefined` there; on success it
calls `fn(null, result)`, so `err` is `null`. -/
structure Invocation where
  cb : Nat
  err : Val
  res : Val
deriving DecidableEq, Repr

/-- The observable state of one ProxyCache instance plus its event loop.
`inflight` maps a key to `some queue` while an upstream call is outstanding;
`done` assigns `null`, modelled as binding the key to `none` (both `null` and
an absent key are falsy for `if (inFlight[key])`). `upstream` logs each
invocation of the underlying method; `invoked` logs callback invocations in
order; `ticks` holds `setImmediate`-deferred deliveries not yet run. -/
structure PCState where
  heap : Heap
  cache : List (String × Val)
  inflight : List (String × Option (List Nat))
  ticks : List (Nat × Val)
  metrics : List Metric
  upstream : List (String × List Val)
  invoked : List Invocation
deriving DecidableEq, Repr

/-- The truthiness test `if (inFlight[key])`: the queue, when one is active. -/
def ifLookup (m : List (String × Option (List Nat))) (k : String) : Option (List Nat) :=
  match assocGet m k with
  | some (some q) => some q
  | _ => none

/-- Write `inFlight[key] = v` (with `none` standing for the code's `null`). -/
def ifSet (m : List (String × Option (List Nat))) (k : String) (v : Option (List Nat)) :
    List (String × Option (List Nat)) :=
  assocSet m k v

/-- The empty state: fresh instance, nothing cached, nothing in flight. -/
def initState : PCState :=
  { heap := [], cache := [], inflight := [], ticks := [], metrics := [],
    upstream := [], invoked := [] }

/-- Translation of the synchronous body of the function returned by `_wrap`
(src/lib/index.js lines 95-149), for a call to wrapped `method` with `args`
and callback `cb`:
stats `calls`/`size` always; on a cache hit, stats `hit` and a deferred
`tick(function(){ callback(null, cached) })` with `cached = clone(get(key))`;
otherwise, if a call for the key is in flight, append the callback to its
queue; otherwise register `inFlight[key] = [callback]`, stat `miss`, and
invoke the underlying method (logged in `upstream`). -/
def callStep (method : String) (args : List Val) (cb : Nat) (s : PCState) : PCState :=
  let k := pcKey method args
  let m1 := s.metrics ++ [Metric.callsIncr method, Metric.sizeGauge s.cache.length method]
  if cacheHas s.cache k then
    let hv := cloneDepth1 s.heap ((assocGet s.cache k).getD Val.undef)
    { s with heap := hv.1,
             metrics := m1 ++ [Metric.hitIncr method],
             ticks := s.ticks ++ [(cb, hv.2)] }
  else
    match ifLookup s.inflight k with
    | some q => { s with metrics := m1, inflight := ifSet s.inflight k (some (q ++ [cb])) }
    | none =>
      { s with metrics := m1 ++ [Metric.missIncr method],
               inflight := ifSet s.inflight k (some [cb]),
               upstream := s.upstream ++ [(method, args)] }

/-- Translation of the completion callback pushed onto the upstream arguments
together with `done` (src/lib/index.js lines 121-144): the duration timer is
recorded first; on error every queued callback receives the error and nothing
is cached; on success the result is cached when `result != undefined` (loose)
or `tombstone` is set, and every queued callback receives `(null, result)`;
either way `inFlight[key]` is reset to `null`. -/
def completeStep (tombstone : Bool) (method : String) (k : String) (err : Option Val)
    (result : Val) (s : PCState) : PCState :=
  let m1 := s.metrics ++ [Metric.durationTimer method]
  let q := (ifLookup s.inflight k).getD []
  match err with
  | some e =>
    { s with metrics := m1,
             invoked := s.invoked ++ q.map (fun c => { cb := c, err := e, res := Val.undef }),
             inflight := ifSet s.inflight k none }
  | none =>
    { s with metrics := m1,
             cache := if loosePresent result || tombstone then cacheSet s.cache k result
                      else s.cache,
             invoked := s.invoked ++ q.map (fun c => { cb := c, err := Val.vnull, res := result }),
             inflight := ifSet s.inflight k none }

/-- Drain the `setImmediate` queue: each deferred task runs
`callback(null, cached)`. -/
def runTicks (s : PCState) : PCState :=
  { s with ticks := [],
           invoked := s.invoked ++ s.ticks.map (fun t => { cb := t.1, err := Val.vnull, res := t.2 }) }

/-- Fold a sequence of wrapped calls (argument list, callback id) over the state. -/
def callMany (method : String) (pairs : List (List Val × Nat)) (s : PCState) : PCState :=
  pairs.foldl (fun st p => callStep method p.1 p.2 st) s

/-- An enumerable member of the target instance: either an (opaque) function,
identified by a numeric id, or a plain value. -/
inductive Member where
  | fn (id : Nat)
  | plain (v : Val)
deriving DecidableEq, Repr

/-- The `instance` argument of the constructor, as far as its checks observe
it: JS primitives, `null`, a plain object with enumerable members, or a
function value. -/
inductive InstanceArg where
  | undef
  | null
  | bool (b : Bool)
  | num (n : Int)
  | str (s : String)
  | obj (props : List (String × Member))
  | fnVal (id : Nat)
deriving DecidableEq, Repr

/-- JS `typeof` on an `InstanceArg`; note the JS quirk `typeof null` is
"object". -/
def jsTypeof : InstanceArg → String
  | InstanceArg.undef => "undefined"
  | InstanceArg.null => "object"
  | InstanceArg.bool _ => "boolean"
  | InstanceArg.num _ => "number"
  | InstanceArg.str _ => "string"
  | InstanceArg.obj _ => "object"
  | InstanceArg.fnVal _ => "function"

/-- The `methods` argument: either an array (whose elements are used as
property names, hence modelled as strings) or any non-array value, which the
`methods instanceof Array` check rejects without looking further. -/
inductive MethodsArg where
  | array (names : List String)
  | nonArray
deriving DecidableEq, Repr

/-- The check `typeof instance[method] === 'function'`: property access on
anything but an object with a function member yields a non-function (or, on
`null`/`undefined`, a synchronous TypeError -- a construction failure either
way, folded into `false` here). -/
def memberIsFn (inst : InstanceArg) (m : String) : Bool :=
  match inst with
  | InstanceArg.obj props =>
    match assocGet props m with
    | some (Member.fn _) => true
    | _ => false
  | _ => false

/-- The enumerable members visited by `for (var prop in instance)`:
the own members of a plain object, nothing for `null`. -/
def enumProps : InstanceArg → List (String × Member)
  | InstanceArg.obj props => props
  | _ => []

/-- What the wrapped instance exposes under a name. `forward n` stands for the
closure `function () { return instance[n].apply(instance, arguments) }` built
by `_proxy` (a thin forwarding call with `this` bound to the original
instance); `asIs v` is a non-function member exposed by direct reference;
`wrapped n` is the caching wrapper built by `_wrap`. -/
inductive Exposed where
  | asIs (v : Val)
  | forward (name : String)
  | wrapped (name : String)
deriving DecidableEq, Repr

/-- Translation of `_proxy` (src/lib/index.js lines 72-77) for one member:
a function member becomes the thin forwarding closure, a non-function member
is exposed as-is. -/
def proxyExposed (k : String) (m : Member) : Exposed :=
  match m with
  | Member.fn _ => Exposed.forward k
  | Member.plain v => Exposed.asIs v

/-- Translation of the property-copy loop plus `_proxy`
(src/lib/index.js lines 57 and 72-77). -/
def buildProxy (props : List (String × Member)) : List (String × Exposed) :=
  props.map (fun p => (p.1, proxyExposed p.1 p.2))

/-- Translation of the constructor `ProxyCache` (src/lib/index.js lines
39-62): the `typeof instance` and `instanceof Array` checks throw first; then
every enumerable member is proxied; then each requested method name is
wrapped in order, `_wrap` throwing synchronously on the first name that is
not a function member (`wrapLoop` is that loop). The result is the wrapped
instance's member table. -/
def wrapLoop (inst : InstanceArg) (names : List String)
    (acc : List (String × Exposed)) : Except String (List (String × Exposed)) :=
  match names with
  | [] => Except.ok acc
  | n :: rest =>
    if memberIsFn inst n then wrapLoop inst rest (assocSet acc n (Exposed.wrapped n))
    else Except.error "Can only cache methods!"

def construct (inst : InstanceArg) (methods : MethodsArg) :
    Except String (List (String × Exposed)) :=
  if jsTypeof inst ≠ "object" then Except.error "Instance must be an object."
  else
    match methods with
    | MethodsArg.nonArray => Except.error "Methods must be an array."
    | MethodsArg.array names => wrapLoop inst names (buildProxy (enumProps inst))

/-! ### Helper lemmas about the association-list operations -/

theorem assocGet_assocSet_self {α : Type} (l : List (String × α)) (k : String) (v : α) :
    assocGet (assocSet l k v) k = some v := by
  induction l with
  | nil => simp [assocSet, assocGet]
  | cons p rest ih =>
    by_cases h : p.1 = k
    · simp [assocSet, h, assocGet]
    · simp only [assocSet]
      rw [if_neg h]
      simpa [assocGet, h] using ih

theorem assocGet_assocSet_ne {α : Type} (l : List (String × α)) (k k' : String) (v : α)
    (h : k ≠ k') : assocGet (assocSet l k v) k' = assocGet l k' := by
  induction l with
  | nil => simp [assocSet, assocGet, h]
  | cons p rest ih =>
    by_cases hp : p.1 = k
    · subst hp
      simp [assocSet, assocGet, h]
    · simp only [assocSet]
      rw [if_neg hp]
      by_cases hk : p.1 = k'
      · simp [assocGet, hk]
      · simp [assocGet, hk, ih]

theorem ifLookup_ifSet_self (m : List (String × Option (List Nat))) (k : String)
    (v : Option (List Nat)) : ifLookup (ifSet m k v) k = v := by
  cases v <;> simp [ifLookup, ifSet, assocGet_assocSet_self]

theorem cacheHas_cacheSet_self (c : List (String × Val)) (k : String) (v : Val) :
    cacheHas (cacheSet c k v) k = true := by
  simp [cacheHas, cacheSet, assocGet_assocSet_self]

theorem assocGet_cacheSet_self (c : List (String × Val)) (k : String) (v : Val) :
    assocGet (cacheSet c k v) k = some v :=
  assocGet_assocSet_self c k v

/-! ### Case-analysis lemmas for one wrapped call -/

theorem callStep_hit (method : String) (args : List Val) (cb : Nat) (s : PCState)
    (hc : cacheHas s.cache (pcKey method args) = true) :
    callStep method args cb s =
      { s with heap := (cloneDepth1 s.heap
                 ((assocGet s.cache (pcKey method args)).getD Val.undef)).1,
               metrics := s.metrics ++ [Metric.callsIncr method,
                 Metric.sizeGauge s.cache.length method, Metric.hitIncr method],
               ticks := s.ticks ++ [(cb, (cloneDepth1 s.heap
                 ((assocGet s.cache (pcKey method args)).getD Val.undef)).2)] } := by
  simp [callStep, hc]

theorem callStep_join (method : String) (args : List Val) (cb : Nat) (s : PCState)
    (q : List Nat)
    (hc : cacheHas s.cache (pcKey method args) = false)
    (hq : ifLookup s.inflight (pcKey method args) = some q) :
    callStep method args cb s =
      { s with metrics := s.metrics ++ [Metric.callsIncr method,
                 Metric.sizeGauge s.cache.length method],
               inflight := ifSet s.inflight (pcKey method args) (some (q ++ [cb])) } := by
  simp [callStep, hc, hq]

theorem callStep_miss (method : String) (args : List Val) (cb : Nat) (s : PCState)
    (hc : cacheHas s.cache (pcKey method args) = false)
    (hq : ifLookup s.inflight (pcKey method args) = none) :
    callStep method args cb s =
      { s with metrics := s.metrics ++ [Metric.callsIncr method,
                 Metric.sizeGauge s.cache.length method, Metric.missIncr method],
               inflight := ifSet s.inflight (pcKey method args) (some [cb]),
               upstream := s.upstream ++ [(method, args)] } := by
  simp [callStep, hc, hq]

theorem completeStep_ok (tomb : Bool) (method k : String) (r : Val) (s : PCState)
    (q : List Nat) (hq : ifLookup s.inflight k = some q) :
    completeStep tomb method k none r s =
      { s with metrics := s.metrics ++ [Metric.durationTimer method],
               cache := if loosePresent r || tomb then cacheSet s.cache k r else s.cache,
               invoked := s.invoked ++ q.map (fun c => { cb := c, err := Val.vnull, res := r }),
               inflight := ifSet s.inflight k none } := by
  simp [completeStep, hq]

theorem completeStep_err (tomb : Bool) (method k : String) (e r : Val) (s : PCState)
    (q : List Nat) (hq : ifLookup s.inflight k = some q) :
    completeStep tomb method k (some e) r s =
      { s with metrics := s.metrics ++ [Metric.durationTimer method],
               invoked := s.invoked ++ q.map (fun c => { cb := c, err := e, res := Val.undef }),
               inflight := ifSet s.inflight k none } := by
  simp [completeStep, hq]

theorem callMany_join (method k : String) (pairs : List (List Val × Nat))
    (s : PCState) (q : List Nat)
    (hk : ∀ p ∈ pairs, pcKey method p.1 = k)
    (hc : cacheHas s.cache k = false)
    (hq : ifLookup s.inflight k = some q) :
    (callMany method pairs s).cache = s.cache ∧
    (callMany method pairs s).upstream = s.upstream ∧
    (callMany method pairs s).invoked = s.invoked ∧
    (callMany method pairs s).ticks = s.ticks ∧
    ifLookup (callMany method pairs s).inflight k = some (q ++ pairs.map Prod.snd) := by
  induction pairs generalizing s q with
  | nil => simp [callMany, hq]
  | cons p rest ih =>
    have hpk : pcKey method p.1 = k := hk p (by simp)
    have hstep : callStep method p.1 p.2 s =
        { s with metrics := s.metrics ++ [Metric.callsIncr method,
                   Metric.sizeGauge s.cache.length method],
                 inflight := ifSet s.inflight k (some (q ++ [p.2])) } := by
      have h := callStep_join method p.1 p.2 s q (by rw [hpk]; exact hc) (by rw [hpk]; exact hq)
      rw [hpk] at h
      exact h
    have hrec := ih (callStep method p.1 p.2 s) (q ++ [p.2])
      (fun p' hp' => hk p' (by simp [hp']))
      (by rw [hstep]; exact hc)
      (by rw [hstep]; exact ifLookup_ifSet_self s.inflight k (some (q ++ [p.2])))
    have hcm : callMany method (p :: rest) s = callMany method rest (callStep method p.1 p.2 s) := by
      simp [callMany]
    rw [hcm]
    refine ⟨?_, ?_, ?_, ?_, ?_⟩
    · rw [hrec.1, hstep]
    · rw [hrec.2.1, hstep]
    · rw [hrec.2.2.1, hstep]
    · rw [hrec.2.2.2.1, hstep]
    · rw [hrec.2.2.2.2]
      simp

/-- C1: for every wrapped method and every sequence of N calls issued with the
same derived key while no cached entry exists and before the first upstream
call resolves, the underlying method is invoked exactly once (and after every
prefix of the sequence at most that one upstream invocation has been issued,
so at most one is outstanding per key at any time), and on completion every
one of the N queued callbacks is invoked with the identical result (or, on the
error path, the identical error) in FIFO arrival order. -/
theorem claim_C1_coalescing (tomb : Bool) (method : String) (args1 : List Val) (cb1 : Nat)
    (rest : List (List Val × Nat)) (s : PCState) (r e : Val)
    (hk : ∀ p ∈ rest, pcKey method p.1 = pcKey method args1)
    (hc : cacheHas s.cache (pcKey method args1) = false)
    (hq : ifLookup s.inflight (pcKey method args1) = none) :
    (callMany method ((args1, cb1) :: rest) s).upstream = s.upstream ++ [(method, args1)] ∧
    (∀ n, (callMany method (((args1, cb1) :: rest).take n) s).upstream = s.upstream ∨
       (callMany method (((args1, cb1) :: rest).take n) s).upstream
         = s.upstream ++ [(method, args1)]) ∧
    ifLookup (callMany method ((args1, cb1) :: rest) s).inflight (pcKey method args1)
      = some (cb1 :: rest.map Prod.snd) ∧
    (callMany method ((args1, cb1) :: rest) s).invoked = s.invoked ∧
    (completeStep tomb method (pcKey method args1) none r
        (callMany method ((args1, cb1) :: rest) s)).invoked
      = s.invoked ++ (cb1 :: rest.map Prod.snd).map
          (fun c => { cb := c, err := Val.vnull, res := r }) ∧
    (completeStep tomb method (pcKey method args1) (some e) r
        (callMany method ((args1, cb1) :: rest) s)).invoked
      = s.invoked ++ (cb1 :: rest.map Prod.snd).map
          (fun c => { cb := c, err := e, res := Val.undef }) := by
  have hstep := callStep_miss method args1 cb1 s hc hq
  have hs1c : (callStep method args1 cb1 s).cache = s.cache := by rw [hstep]
  have hs1u : (callStep method args1 cb1 s).upstream = s.upstream ++ [(method, args1)] := by
    rw [hstep]
  have hs1i : (callStep method args1 cb1 s).invoked = s.invoked := by rw [hstep]
  have hs1q : ifLookup (callStep method args1 cb1 s).inflight (pcKey method args1)
      = some [cb1] := by
    rw [hstep]
    exact ifLookup_ifSet_self s.inflight (pcKey method args1) (some [cb1])
  have hcm : callMany method ((args1, cb1) :: rest) s
      = callMany method rest (callStep method args1 cb1 s) := by
    simp [callMany]
  have hrec := callMany_join method (pcKey method args1) rest (callStep method args1 cb1 s)
    [cb1] hk (by rw [hs1c]; exact hc) hs1q
  have hup : (callMany method ((args1, cb1) :: rest) s).upstream
      = s.upstream ++ [(method, args1)] := by
    rw [hcm, hrec.2.1, hs1u]
  have hqfin : ifLookup (callMany method ((args1, cb1) :: rest) s).inflight
      (pcKey method args1) = some (cb1 :: rest.map Prod.snd) := by
    rw [hcm, hrec.2.2.2.2]
    simp
  refine ⟨hup, ?_, hqfin, ?_, ?_, ?_⟩
  · intro n
    cases n with
    | zero => left; simp [callMany]
    | succ m =>
      right
      have htake : ((args1, cb1) :: rest).take (m + 1) = (args1, cb1) :: rest.take m := by
        simp
      rw [htake]
      have hrec' := callMany_join method (pcKey method args1) (rest.take m)
        (callStep method args1 cb1 s) [cb1]
        (fun p hp => hk p (List.take_subset m rest hp))
        (by rw [hs1c]; exact hc) hs1q
      have hcm' : callMany method ((args1, cb1) :: rest.take m) s
          = callMany method (rest.take m) (callStep method args1 cb1 s) := by
        simp [callMany]
      rw [hcm', hrec'.2.1, hs1u]
  · rw [hcm, hrec.2.2.1, hs1i]
  · rw [completeStep_ok tomb method (pcKey method args1) r _ _ hqfin]
    rw [hcm, hrec.2.2.1, hs1i]
  · rw [completeStep_err tomb method (pcKey method args1) e r _ _ hqfin]
    rw [hcm, hrec.2.2.1, hs1i]

/-- Witness for C1: two concrete back-to-back calls for the key of
`m(1)` from the empty state. -/
theorem claim_C1_coalescing_witness :
    (∀ p ∈ [([Val.num 1], 2)], pcKey "m" p.1 = pcKey "m" [Val.num 1]) ∧
    cacheHas initState.cache (pcKey "m" [Val.num 1]) = false ∧
    ifLookup initState.inflight (pcKey "m" [Val.num 1]) = none ∧
    ((callMany "m" [([Val.num 1], 1), ([Val.num 1], 2)] initState).upstream
      = initState.upstream ++ [("m", [Val.num 1])] ∧
     (∀ n, (callMany "m" ([([Val.num 1], 1), ([Val.num 1], 2)].take n) initState).upstream
         = initState.upstream ∨
        (callMany "m" ([([Val.num 1], 1), ([Val.num 1], 2)].take n) initState).upstream
         = initState.upstream ++ [("m", [Val.num 1])]) ∧
     ifLookup (callMany "m" [([Val.num 1], 1), ([Val.num 1], 2)] initState).inflight
        (pcKey "m" [Val.num 1]) = some (1 :: [([Val.num 1], 2)].map Prod.snd) ∧
     (callMany "m" [([Val.num 1], 1), ([Val.num 1], 2)] initState).invoked
       = initState.invoked ∧
     (completeStep true "m" (pcKey "m" [Val.num 1]) none (Val.str "r")
         (callMany "m" [([Val.num 1], 1), ([Val.num 1], 2)] initState)).invoked
       = initState.invoked ++ (1 :: [([Val.num 1], 2)].map Prod.snd).map
           (fun c => { cb := c, err := Val.vnull, res := Val.str "r" }) ∧
     (completeStep true "m" (pcKey "m" [Val.num 1]) (some (Val.str "boom")) (Val.str "r")
         (callMany "m" [([Val.num 1], 1), ([Val.num 1], 2)] initState)).invoked
       = initState.invoked ++ (1 :: [([Val.num 1], 2)].map Prod.snd).map
           (fun c => { cb := c, err := Val.str "boom", res := Val.undef })) :=
  ⟨by decide, by decide, by decide,
   claim_C1_coalescing true "m" [Val.num 1] 1 [([Val.num 1], 2)] initState
     (Val.str "r") (Val.str "boom") (by decide) (by decide) (by decide)⟩

/-- C2: when an upstream call for a key completes with an error, no cache
entry is created for the key, every callback queued for the key is invoked
with that same error, and the in-flight entry for the key is cleared, so a
next call for the key (with the cache still lacking the key) re-invokes the
underlying method rather than replaying the failure. -/
theorem claim_C2_error_not_cached (tomb : Bool) (method k : String) (e : Val)
    (s : PCState) (q : List Nat) (args : List Val) (cb : Nat)
    (hq : ifLookup s.inflight k = some q)
    (hargs : pcKey method args = k) :
    (completeStep tomb method k (some e) Val.undef s).cache = s.cache ∧
    (completeStep tomb method k (some e) Val.undef s).invoked
      = s.invoked ++ q.map (fun c => { cb := c, err := e, res := Val.undef }) ∧
    ifLookup (completeStep tomb method k (some e) Val.undef s).inflight k = none ∧
    (cacheHas s.cache k = false →
      (callStep method args cb (completeStep tomb method k (some e) Val.undef s)).upstream
        = (completeStep tomb method k (some e) Val.undef s).upstream ++ [(method, args)]) := by
  have hstep := completeStep_err tomb method k e Val.undef s q hq
  have h1 : (completeStep tomb method k (some e) Val.undef s).cache = s.cache := by rw [hstep]
  have h3 : ifLookup (completeStep tomb method k (some e) Val.undef s).inflight k = none := by
    rw [hstep]
    exact ifLookup_ifSet_self s.inflight k none
  refine ⟨h1, by rw [hstep], h3, ?_⟩
  intro hc
  have hmiss := callStep_miss method args cb (completeStep tomb method k (some e) Val.undef s)
    (by rw [hargs, h1]; exact hc) (by rw [hargs]; exact h3)
  rw [hmiss]

/-- Witness for C2: a concrete error completion for the key of `m(1)` with two
queued callbacks, followed by a retry call. -/
theorem claim_C2_error_not_cached_witness :
    ifLookup [(pcKey "m" [Val.num 1], some [1, 2])] (pcKey "m" [Val.num 1]) = some [1, 2] ∧
    pcKey "m" [Val.num 1] = pcKey "m" [Val.num 1] ∧
    (let s : PCState := { initState with inflight := [(pcKey "m" [Val.num 1], some [1, 2])] }
     (completeStep true "m" (pcKey "m" [Val.num 1]) (some (Val.str "boom")) Val.undef s).cache
       = s.cache ∧
     (completeStep true "m" (pcKey "m" [Val.num 1]) (some (Val.str "boom")) Val.undef s).invoked
       = s.invoked ++ [1, 2].map (fun c => { cb := c, err := Val.str "boom", res := Val.undef }) ∧
     ifLookup (completeStep true "m" (pcKey "m" [Val.num 1]) (some (Val.str "boom"))
         Val.undef s).inflight (pcKey "m" [Val.num 1]) = none ∧
     (cacheHas s.cache (pcKey "m" [Val.num 1]) = false →
       (callStep "m" [Val.num 1] 3 (completeStep true "m" (pcKey "m" [Val.num 1])
           (some (Val.str "boom")) Val.undef s)).upstream
         = (completeStep true "m" (pcKey "m" [Val.num 1]) (some (Val.str "boom"))
             Val.undef s).upstream ++ [("m", [Val.num 1])])) :=
  ⟨by decide, rfl,
   claim_C2_error_not_cached true "m" (pcKey "m" [Val.num 1]) (Val.str "boom")
     { initState with inflight := [(pcKey "m" [Val.num 1], some [1, 2])] }
     [1, 2] [Val.num 1] 3 (by decide) rfl⟩

/-- C4 counterexample: an error-free completion with the `null` result and
tombstone disabled. `null` is a defined value (it is not `undefined`), so the
claim's rule "stored iff defined, or undefined with tombstone enabled" demands
that it be stored; the code's presence test is the loose `result != undefined`,
which `null` fails, so nothing is stored. -/
theorem claim_C4_counterexample :
    specDefined Val.vnull = true ∧
    (Val.vnull = Val.undef → False) ∧
    cacheHas (completeStep false "m" (pcKey "m" [Val.num 1]) none Val.vnull
        { initState with inflight := [(pcKey "m" [Val.num 1], some [0])] }).cache
      (pcKey "m" [Val.num 1]) = false := by
  decide

/-- C4 amended: for every wrapped call whose upstream completes without error,
the result is stored in the cache if and only if it passes the code's loose
presence test `result != undefined` (true for every value other than
`undefined` and `null`) or the tombstone option is enabled; when it is not
stored, a subsequent call for that key re-invokes the underlying method. -/
theorem claim_C4_storage_rule (tomb : Bool) (method k : String) (r : Val) (s : PCState)
    (args : List Val) (cb : Nat)
    (hc : cacheHas s.cache k = false)
    (hargs : pcKey method args = k) :
    cacheHas (completeStep tomb method k none r s).cache k = (loosePresent r || tomb) ∧
    ((loosePresent r || tomb) = false →
      (callStep method args cb (completeStep tomb method k none r s)).upstream
        = (completeStep tomb method k none r s).upstream ++ [(method, args)]) := by
  have hifl : ifLookup (completeStep tomb method k none r s).inflight k = none := by
    simp only [completeStep]
    exact ifLookup_ifSet_self s.inflight k none
  have hcache : (completeStep tomb method k none r s).cache
      = if loosePresent r || tomb then cacheSet s.cache k r else s.cache := by
    simp [completeStep]
  constructor
  · rw [hcache]
    cases hpt : loosePresent r || tomb with
    | true => simp [cacheHas_cacheSet_self]
    | false => simpa using hc
  · intro hpt
    have hc' : cacheHas (completeStep tomb method k none r s).cache (pcKey method args)
        = false := by
      rw [hargs, hcache, hpt]
      simpa using hc
    have h := callStep_miss method args cb (completeStep tomb method k none r s) hc'
      (by rw [hargs]; exact hifl)
    rw [h]

/-- Witness for C4 amended: a `null` result with tombstone disabled, from a
state with one waiter queued; the result is not stored and the follow-up call
goes upstream. -/
theorem claim_C4_storage_rule_witness :
    cacheHas initState.cache (pcKey "m" [Val.num 1]) = false ∧
    pcKey "m" [Val.num 1] = pcKey "m" [Val.num 1] ∧
    (cacheHas (completeStep false "m" (pcKey "m" [Val.num 1]) none Val.vnull
        initState).cache (pcKey "m" [Val.num 1])
      = (loosePresent Val.vnull || false) ∧
     ((loosePresent Val.vnull || false) = false →
       (callStep "m" [Val.num 1] 7 (completeStep false "m" (pcKey "m" [Val.num 1]) none
           Val.vnull initState)).upstream
         = (completeStep false "m" (pcKey "m" [Val.num 1]) none Val.vnull
             initState).upstream ++ [("m", [Val.num 1])])) :=
  ⟨by decide, rfl,
   claim_C4_storage_rule false "m" (pcKey "m" [Val.num 1]) Val.vnull initState
     [Val.num 1] 7 (by decide) rfl⟩

/-- C10: the presence test is the loose `result != undefined`, so a `null`
result is treated exactly like `undefined`: with tombstone disabled it is
never stored and a next call for the key re-invokes the underlying method;
with tombstone enabled the `null` is stored and a next call is served from
the cache, with `null` delivered on the deferred tick. -/
theorem claim_C10_null_caching (method k : String) (args : List Val) (cb cb' : Nat)
    (s : PCState)
    (hargs : pcKey method args = k)
    (hc : cacheHas s.cache k = false) :
    loosePresent Val.vnull = loosePresent Val.undef ∧
    (cacheHas (completeStep false method k none Val.vnull s).cache k = false ∧
     (callStep method args cb (completeStep false method k none Val.vnull s)).upstream
       = (completeStep false method k none Val.vnull s).upstream ++ [(method, args)]) ∧
    (assocGet (completeStep true method k none Val.vnull s).cache k = some Val.vnull ∧
     (callStep method args cb' (completeStep true method k none Val.vnull s)).ticks
       = (completeStep true method k none Val.vnull s).ticks ++ [(cb', Val.vnull)] ∧
     (callStep method args cb' (completeStep true method k none Val.vnull s)).upstream
       = (completeStep true method k none Val.vnull s).upstream) := by
  have hoffCache : (completeStep false method k none Val.vnull s).cache = s.cache := by
    simp [completeStep, loosePresent]
  have hoffIfl : ifLookup (completeStep false method k none Val.vnull s).inflight k = none := by
    simp only [completeStep]
    exact ifLookup_ifSet_self s.inflight k none
  have honCache : (completeStep true method k none Val.vnull s).cache
      = cacheSet s.cache k Val.vnull := by
    simp [completeStep, loosePresent]
  have honGet : assocGet (completeStep true method k none Val.vnull s).cache k
      = some Val.vnull := by
    rw [honCache]
    exact assocGet_cacheSet_self s.cache k Val.vnull
  refine ⟨rfl, ⟨by rw [hoffCache]; exact hc, ?_⟩, honGet, ?_, ?_⟩
  · have h := callStep_miss method args cb (completeStep false method k none Val.vnull s)
      (by rw [hargs, hoffCache]; exact hc) (by rw [hargs]; exact hoffIfl)
    rw [h]
  · have hhas : cacheHas (completeStep true method k none Val.vnull s).cache
        (pcKey method args) = true := by
      rw [hargs, honCache]
      exact cacheHas_cacheSet_self s.cache k Val.vnull
    have h := callStep_hit method args cb' (completeStep true method k none Val.vnull s) hhas
    rw [h]
    rw [hargs, honGet]
    simp [cloneDepth1]
  · have hhas : cacheHas (completeStep true method k none Val.vnull s).cache
        (pcKey method args) = true := by
      rw [hargs, honCache]
      exact cacheHas_cacheSet_self s.cache k Val.vnull
    have h := callStep_hit method args cb' (completeStep true method k none Val.vnull s) hhas
    rw [h]

/-- Witness for C10: the concrete key of `m(1)` from the empty state. -/
theorem claim_C10_null_caching_witness :
    pcKey "m" [Val.num 1] = pcKey "m" [Val.num 1] ∧
    cacheHas initState.cache (pcKey "m" [Val.num 1]) = false ∧
    (loosePresent Val.vnull = loosePresent Val.undef ∧
     (cacheHas (completeStep false "m" (pcKey "m" [Val.num 1]) none Val.vnull
         initState).cache (pcKey "m" [Val.num 1]) = false ∧
      (callStep "m" [Val.num 1] 4 (completeStep false "m" (pcKey "m" [Val.num 1]) none
          Val.vnull initState)).upstream
        = (completeStep false "m" (pcKey "m" [Val.num 1]) none Val.vnull
            initState).upstream ++ [("m", [Val.num 1])]) ∧
     (assocGet (completeStep true "m" (pcKey "m" [Val.num 1]) none Val.vnull
         initState).cache (pcKey "m" [Val.num 1]) = some Val.vnull ∧
      (callStep "m" [Val.num 1] 5 (completeStep true "m" (pcKey "m" [Val.num 1]) none
          Val.vnull initState)).ticks
        = (completeStep true "m" (pcKey "m" [Val.num 1]) none Val.vnull
            initState).ticks ++ [(5, Val.vnull)] ∧
      (callStep "m" [Val.num 1] 5 (completeStep true "m" (pcKey "m" [Val.num 1]) none
          Val.vnull initState)).upstream
        = (completeStep true "m" (pcKey "m" [Val.num 1]) none Val.vnull
            initState).upstream)) :=
  ⟨rfl, by decide,
   claim_C10_null_caching "m" (pcKey "m" [Val.num 1]) [Val.num 1] 4 5 initState rfl (by decide)⟩

theorem readField_setField_ne (h : Heap) (a b : Nat) (f g : String) (v : Val)
    (hab : b ≠ a) : readField (setField h b f v) a g = readField h a g := by
  unfold readField setField
  simp only [List.get?_eq_getElem?]
  rw [List.getElem?_set_ne hab]

/-- C3 counterexample: one caller waits on upstream for `m(1)`; upstream
resolves with a freshly allocated object `{f: 7}` at address 0. The value
delivered to the waiting callback and the value stored in the cache are the
same reference, so mutating the returned object (setting its field `f` to 9
through the delivered reference) changes the stored cache entry, and a later
cache-hit caller for the same key receives the mutated content -- the value
handed back on upstream completion is not an independent copy. -/
theorem claim_C3_counterexample :
    (let s1 := callStep "m" [Val.num 1] 0 initState
     let ar := allocObj s1.heap [("f", Val.num 7)]
     let s3 := completeStep true "m" (pcKey "m" [Val.num 1]) none ar.2
       { s1 with heap := ar.1 }
     s3.invoked = [{ cb := 0, err := Val.vnull, res := Val.ref 0 }] ∧
     assocGet s3.cache (pcKey "m" [Val.num 1]) = some (Val.ref 0) ∧
     readField s3.heap 0 "f" = some (Val.num 7) ∧
     readField (setField s3.heap 0 "f" (Val.num 9)) 0 "f" = some (Val.num 9) ∧
     (let s4 := callStep "m" [Val.num 1] 1
        { s3 with heap := setField s3.heap 0 "f" (Val.num 9) }
      s4.ticks = [(1, Val.ref 1)] ∧
      readField s4.heap 1 "f" = some (Val.num 9))) := by
  decide

/-- C3 amended: only cache-hit reads are copies, and only at the top level:
a cache hit delivers a reference to a freshly allocated object distinct from
the stored one, and mutating a top-level field through that fresh reference
leaves the stored object's fields unchanged; by contrast, on upstream
completion every queued callback receives the very value that is stored in
the cache, so the completion-path value is shared, not a copy. -/
theorem claim_C3_copy_isolation (method : String) (args : List Val) (cb : Nat) (s : PCState)
    (a : Nat) (f g : String) (v : Val)
    (hk : assocGet s.cache (pcKey method args) = some (Val.ref a))
    (ha : a < s.heap.length) :
    (callStep method args cb s).ticks = s.ticks ++ [(cb, Val.ref s.heap.length)] ∧
    Val.ref s.heap.length ≠ Val.ref a ∧
    readField (setField (callStep method args cb s).heap s.heap.length f v) a g
      = readField (callStep method args cb s).heap a g ∧
    (∀ tomb k r q s', ifLookup s'.inflight k = some q →
      (completeStep tomb method k none r s').invoked
        = s'.invoked ++ q.map (fun c => { cb := c, err := Val.vnull, res := r }) ∧
      ((loosePresent r || tomb) = true →
        assocGet (completeStep tomb method k none r s').cache k = some r)) := by
  have hhas : cacheHas s.cache (pcKey method args) = true := by
    simp [cacheHas, hk]
  have hstep := callStep_hit method args cb s hhas
  have hclone : cloneDepth1 s.heap ((assocGet s.cache (pcKey method args)).getD Val.undef)
      = (s.heap ++ [s.heap.getD a []], Val.ref s.heap.length) := by
    rw [hk]
    rfl
  refine ⟨?_, ?_, ?_, ?_⟩
  · rw [hstep, hclone]
  · intro hcontra
    exact absurd (Val.ref.injEq s.heap.length a ▸ congrArg id hcontra) (by
      simp [Nat.ne_of_lt ha, Ne.symm (Nat.ne_of_lt ha)])
  · have hheap : (callStep method args cb s).heap = s.heap ++ [s.heap.getD a []] := by
      rw [hstep, hclone]
    rw [hheap]
    exact readField_setField_ne (s.heap ++ [s.heap.getD a []]) a s.heap.length f g v
      (Ne.symm (Nat.ne_of_lt ha))
  · intro tomb k r q s' hq
    have hok := completeStep_ok tomb method k r s' q hq
    constructor
    · rw [hok]
    · intro hpt
      have : (completeStep tomb method k none r s').cache = cacheSet s'.cache k r := by
        rw [hok, hpt]
        simp [hpt]
      rw [this]
      exact assocGet_cacheSet_self s'.cache k r

/-- The concrete state used by the C3 witness: one object `{f: 7}` on the
heap, and the key of `m(1)` cached as a reference to it. -/
def c3WitState : PCState :=
  { initState with heap := [[("f", Val.num 7)]],
                   cache := [(pcKey "m" [Val.num 1], Val.ref 0)] }

/-- Witness for C3 amended: a state whose cache maps the key of `m(1)` to a
reference to the one object on the heap. -/
theorem claim_C3_copy_isolation_witness :
    (let s : PCState := c3WitState
     assocGet s.cache (pcKey "m" [Val.num 1]) = some (Val.ref 0) ∧
     0 < s.heap.length ∧
     ((callStep "m" [Val.num 1] 6 s).ticks = s.ticks ++ [(6, Val.ref s.heap.length)] ∧
      Val.ref s.heap.length ≠ Val.ref 0 ∧
      readField (setField (callStep "m" [Val.num 1] 6 s).heap s.heap.length "f" (Val.num 9))
          0 "g" = readField (callStep "m" [Val.num 1] 6 s).heap 0 "g" ∧
      (∀ tomb k r q s', ifLookup s'.inflight k = some q →
        (completeStep tomb "m" k none r s').invoked
          = s'.invoked ++ q.map (fun c => { cb := c, err := Val.vnull, res := r }) ∧
        ((loosePresent r || tomb) = true →
          assocGet (completeStep tomb "m" k none r s').cache k = some r)))) :=
  ⟨by decide, by decide,
   claim_C3_copy_isolation "m" [Val.num 1] 6 c3WitState
     0 "f" "g" (Val.num 9) (by decide) (by decide)⟩

theorem joinFrom_eq (l : List Val) : ∀ acc : String,
    joinFrom acc l
      = acc ++ (l.map (fun v => ":" ++ jsJoinStr v)).foldr (fun a b => a ++ b) "" := by
  induction l with
  | nil => intro acc; simp [joinFrom]
  | cons v rest ih =>
    intro acc
    simp only [joinFrom, List.map_cons, List.foldr_cons, ih]
    simp [String.append_assoc]

/-- C6: the derived cache key is the deterministic, order-sensitive string
obtained by joining the method name and the stringified arguments with the
fixed separator ':' (first conjunct: the source's accumulation equals the
join described by the spec, for all inputs); consequently argument lists
whose elements stringify identically collide: numeric `1` versus text `"1"`,
and a value containing the separator versus the split arguments; order still
matters, as `m(1,2)` and `m(2,1)` derive different keys. -/
theorem claim_C6_key_derivation :
    (∀ method args, pcKey method args = specKeyJoin method args) ∧
    pcKey "m" [Val.num 1] = pcKey "m" [Val.str "1"] ∧
    pcKey "m" [Val.str "a:b"] = pcKey "m" [Val.str "a", Val.str "b"] ∧
    pcKey "m" [Val.num 1, Val.num 2] ≠ pcKey "m" [Val.num 2, Val.num 1] := by
  refine ⟨?_, by decide, by decide, by decide⟩
  intro method args
  exact joinFrom_eq args method

/-- C7: a call that hits the cache invokes no callback synchronously within
the calling step; delivery of the (depth-1 cloned) cached value is deferred
to the tick queue, and only draining the tick queue invokes the callback
with `(null, cached)`. -/
theorem claim_C7_hit_deferred (method : String) (args : List Val) (cb : Nat) (s : PCState)
    (hc : cacheHas s.cache (pcKey method args) = true) :
    (callStep method args cb s).invoked = s.invoked ∧
    (callStep method args cb s).ticks = s.ticks ++
      [(cb, (cloneDepth1 s.heap ((assocGet s.cache (pcKey method args)).getD Val.undef)).2)] ∧
    (runTicks (callStep method args cb s)).invoked
      = (callStep method args cb s).invoked
        ++ (callStep method args cb s).ticks.map
             (fun t => { cb := t.1, err := Val.vnull, res := t.2 }) := by
  have hstep := callStep_hit method args cb s hc
  exact ⟨by rw [hstep], by rw [hstep], rfl⟩

/-- Witness for C7: a concrete hit on the cached key of `m(2)`. -/
theorem claim_C7_hit_deferred_witness :
    cacheHas (PCState.cache { initState with cache := [(pcKey "m" [Val.num 2], Val.str "v")] })
      (pcKey "m" [Val.num 2]) = true ∧
    (let s : PCState := { initState with cache := [(pcKey "m" [Val.num 2], Val.str "v")] }
     (callStep "m" [Val.num 2] 9 s).invoked = s.invoked ∧
     (callStep "m" [Val.num 2] 9 s).ticks = s.ticks ++
       [(9, (cloneDepth1 s.heap ((assocGet s.cache (pcKey "m" [Val.num 2])).getD
          Val.undef)).2)] ∧
     (runTicks (callStep "m" [Val.num 2] 9 s)).invoked
       = (callStep "m" [Val.num 2] 9 s).invoked
         ++ (callStep "m" [Val.num 2] 9 s).ticks.map
              (fun t => { cb := t.1, err := Val.vnull, res := t.2 })) :=
  ⟨by decide,
   claim_C7_hit_deferred "m" [Val.num 2] 9
     { initState with cache := [(pcKey "m" [Val.num 2], Val.str "v")] } (by decide)⟩

/-- C9: every call emits `proxy-cache.calls` (incr) and `proxy-cache.size`
(gauge of the current entry count), tagged with the method; `proxy-cache.hit`
is emitted exactly on a cache hit; `proxy-cache.miss` is emitted exactly when
a new upstream call is initiated (and then the upstream log grows by that
call, so miss and new-upstream coincide); `proxy-cache.duration` is never
emitted by the synchronous call path -- it is emitted exactly once per
upstream completion, hit paths having no completion. -/
theorem claim_C9_metrics (method : String) (args : List Val) (cb : Nat) (s : PCState)
    (tomb : Bool) (k : String) (err : Option Val) (r : Val) :
    ((callStep method args cb s).metrics
      = s.metrics ++ [Metric.callsIncr method, Metric.sizeGauge s.cache.length method]
        ++ (if cacheHas s.cache (pcKey method args) = true then [Metric.hitIncr method]
            else if (ifLookup s.inflight (pcKey method args)).isSome then []
            else [Metric.missIncr method])) ∧
    ((callStep method args cb s).upstream
      = s.upstream ++ (if cacheHas s.cache (pcKey method args) = true then []
            else if (ifLookup s.inflight (pcKey method args)).isSome then []
            else [(method, args)])) ∧
    (completeStep tomb method k err r s).metrics
      = s.metrics ++ [Metric.durationTimer method] := by
  refine ⟨?_, ?_, ?_⟩
  · by_cases hc : cacheHas s.cache (pcKey method args) = true
    · rw [callStep_hit method args cb s hc]
      simp [hc]
    · cases hq : ifLookup s.inflight (pcKey method args) with
      | some q =>
        rw [callStep_join method args cb s q (by simpa using hc) hq]
        simp [hc, hq]
      | none =>
        rw [callStep_miss method args cb s (by simpa using hc) hq]
        simp [hc, hq]
  · by_cases hc : cacheHas s.cache (pcKey method args) = true
    · rw [callStep_hit method args cb s hc]
      simp [hc]
    · cases hq : ifLookup s.inflight (pcKey method args) with
      | some q =>
        rw [callStep_join method args cb s q (by simpa using hc) hq]
        simp [hc, hq]
      | none =>
        rw [callStep_miss method args cb s (by simpa using hc) hq]
        simp [hc, hq]
  · cases err with
    | none => simp [completeStep]
    | some e => simp [completeStep]

theorem wrapLoop_ok_iff (inst : InstanceArg) (names : List String) :
    ∀ acc : List (String × Exposed),
      (∃ w, wrapLoop inst names acc = Except.ok w)
        ↔ ∀ m ∈ names, memberIsFn inst m = true := by
  induction names with
  | nil =>
    intro acc
    simp [wrapLoop]
  | cons n rest ih =>
    intro acc
    by_cases hn : memberIsFn inst n = true
    · simp only [wrapLoop, hn, if_pos, List.mem_cons]
      rw [ih (assocSet acc n (Exposed.wrapped n))]
      constructor
      · intro h m hm
        cases hm with
        | inl he => rw [he]; exact hn
        | inr hr => exact h m hr
      · intro h m hm
        exact h m (Or.inr hm)
    · rw [show wrapLoop inst (n :: rest) acc = Except.error "Can only cache methods!" by
        simp [wrapLoop, hn]]
      simp only [List.mem_cons]
      constructor
      · intro h
        rcases h with ⟨w, hw⟩
        exact absurd hw (by simp)
      · intro h
        exact absurd (h n (Or.inl rfl)) hn

/-- C5: construction of `ProxyCache(instance, methodNames, options)` fails
synchronously (modelled as `Except.error`, raised before any wrapped instance
is produced) exactly when `instance` is not object-like (the source's check is
`typeof instance === 'object'`, under which `null` counts as object-like -- the
JS `typeof null` quirk), or `methodNames` is not an array, or some requested
name is not a function member of `instance`; otherwise construction succeeds
and returns a wrapped instance. -/
theorem claim_C5_construction_errors (inst : InstanceArg) (methods : MethodsArg) :
    (∃ w, construct inst methods = Except.ok w)
      ↔ (jsTypeof inst = "object" ∧
         ∃ names, methods = MethodsArg.array names ∧ ∀ m ∈ names, memberIsFn inst m = true) := by
  by_cases ht : jsTypeof inst = "object"
  · cases methods with
    | nonArray =>
      rw [show construct inst MethodsArg.nonArray = Except.error "Methods must be an array." by
        simp [construct, ht]]
      constructor
      · intro h
        rcases h with ⟨w, hw⟩
        exact absurd hw (by simp)
      · intro h
        rcases h.2 with ⟨names, hn, _⟩
        exact absurd hn (by simp)
    | array names =>
      rw [show construct inst (MethodsArg.array names)
          = wrapLoop inst names (buildProxy (enumProps inst)) by simp [construct, ht]]
      rw [wrapLoop_ok_iff inst names (buildProxy (enumProps inst))]
      constructor
      · intro h
        exact ⟨ht, names, rfl, h⟩
      · intro h
        rcases h.2 with ⟨names', hn, hall⟩
        cases hn
        exact hall
  · rw [show construct inst methods = Except.error "Instance must be an object." by
      simp [construct, ht]]
    constructor
    · intro h
      rcases h with ⟨w, hw⟩
      exact absurd hw (by simp)
    · intro h
      exact absurd h.1 ht

theorem wrapLoop_lookup_not_mem (inst : InstanceArg) (names : List String) :
    ∀ acc w k, wrapLoop inst names acc = Except.ok w → k ∉ names →
      assocGet w k = assocGet acc k := by
  induction names with
  | nil =>
    intro acc w k hw hk
    cases hw
    rfl
  | cons n rest ih =>
    intro acc w k hw hk
    by_cases hn : memberIsFn inst n = true
    · rw [show wrapLoop inst (n :: rest) acc
          = wrapLoop inst rest (assocSet acc n (Exposed.wrapped n)) by
        simp [wrapLoop, hn]] at hw
      rw [ih _ w k hw (fun h => hk (List.mem_cons_of_mem n h))]
      exact assocGet_assocSet_ne acc n k (Exposed.wrapped n)
        (fun he => hk (he ▸ List.mem_cons_self n rest))
    · rw [show wrapLoop inst (n :: rest) acc = Except.error "Can only cache methods!" by
        simp [wrapLoop, hn]] at hw
      exact absurd hw (by simp)

theorem wrapLoop_lookup_mem (inst : InstanceArg) (names : List String) :
    ∀ acc w k, wrapLoop inst names acc = Except.ok w → k ∈ names →
      assocGet w k = some (Exposed.wrapped k) := by
  induction names with
  | nil =>
    intro acc w k hw hk
    exact absurd hk (by simp)
  | cons n rest ih =>
    intro acc w k hw hk
    by_cases hn : memberIsFn inst n = true
    · rw [show wrapLoop inst (n :: rest) acc
          = wrapLoop inst rest (assocSet acc n (Exposed.wrapped n)) by
        simp [wrapLoop, hn]] at hw
      by_cases hkr : k ∈ rest
      · exact ih _ w k hw hkr
      · have hkn : k = n := by
          rcases List.mem_cons.mp hk with h | h
          · exact h
          · exact absurd h hkr
        rw [wrapLoop_lookup_not_mem inst rest _ w k hw hkr, hkn]
        exact assocGet_assocSet_self acc n (Exposed.wrapped n)
    · rw [show wrapLoop inst (n :: rest) acc = Except.error "Can only cache methods!" by
        simp [wrapLoop, hn]] at hw
      exact absurd hw (by simp)

theorem assocGet_buildProxy (props : List (String × Member)) (k : String) (m : Member)
    (hnd : (props.map Prod.fst).Nodup) (hm : (k, m) ∈ props) :
    assocGet (buildProxy props) k = some (proxyExposed k m) := by
  induction props with
  | nil => cases hm
  | cons p rest ih =>
    rcases List.mem_cons.mp hm with he | hr
    · rw [← he]
      simp [buildProxy, assocGet]
    · have hk : p.1 ≠ k := by
        intro hpk
        have hin : k ∈ rest.map Prod.fst := List.mem_map.mpr ⟨(k, m), hr, rfl⟩
        have hnotin : p.1 ∉ rest.map Prod.fst := (List.nodup_cons.mp (by simpa using hnd)).1
        exact hnotin (hpk ▸ hin)
      have htail : (rest.map Prod.fst).Nodup := (List.nodup_cons.mp (by simpa using hnd)).2
      simp only [buildProxy, List.map_cons, assocGet]
      rw [if_neg hk]
      exact ih htail hr

/-- C8: for a target object with distinct member names, every enumerable
member whose name is not among the wrapped method names is exposed by the
constructed wrapper as the source exposes it -- a function member as the thin
forwarding closure built by `_proxy` (which invokes the original with `this`
bound to the original instance), a non-function member as-is by direct
reference -- while every name in the method list is exposed as the
caching-wrapped version built by `_wrap`. -/
theorem claim_C8_passthrough (props : List (String × Member)) (names : List String)
    (w : List (String × Exposed)) (k : String) (m : Member)
    (hnd : (props.map Prod.fst).Nodup)
    (hw : construct (InstanceArg.obj props) (MethodsArg.array names) = Except.ok w) :
    ((k, m) ∈ props → k ∉ names →
      assocGet w k = some (proxyExposed k m)) ∧
    (k ∈ names → assocGet w k = some (Exposed.wrapped k)) := by
  have hw' : wrapLoop (InstanceArg.obj props) names (buildProxy props) = Except.ok w := by
    simpa [construct, jsTypeof, enumProps] using hw
  constructor
  · intro hm hk
    rw [wrapLoop_lookup_not_mem _ names _ w k hw' hk]
    exact assocGet_buildProxy props k m hnd hm
  · intro hk
    exact wrapLoop_lookup_mem _ names _ w k hw' hk

/-- Witness for C8: an instance with a plain member `a`, function members `b`
and `c`, wrapping only `c`. -/
theorem claim_C8_passthrough_witness :
    (([("a", Member.plain (Val.num 5)), ("b", Member.fn 0),
        ("c", Member.fn 1)].map Prod.fst).Nodup ∧
     construct (InstanceArg.obj [("a", Member.plain (Val.num 5)), ("b", Member.fn 0),
         ("c", Member.fn 1)]) (MethodsArg.array ["c"])
       = Except.ok [("a", Exposed.asIs (Val.num 5)), ("b", Exposed.forward "b"),
           ("c", Exposed.wrapped "c")]) ∧
    ((("a", Member.plain (Val.num 5)) ∈ [("a", Member.plain (Val.num 5)), ("b", Member.fn 0),
         ("c", Member.fn 1)] → "a" ∉ ["c"] →
       assocGet [("a", Exposed.asIs (Val.num 5)), ("b", Exposed.forward "b"),
           ("c", Exposed.wrapped "c")] "a" = some (Exposed.asIs (Val.num 5))) ∧
     ("a" ∈ ["c"] →
       assocGet [("a", Exposed.asIs (Val.num 5)), ("b", Exposed.forward "b"),
           ("c", Exposed.wrapped "c")] "a" = some (Exposed.wrapped "a"))) :=
  ⟨⟨by decide, by rfl⟩,
   claim_C8_passthrough [("a", Member.plain (Val.num 5)), ("b", Member.fn 0), ("c", Member.fn 1)]
     ["c"] [("a", Exposed.asIs (Val.num 5)), ("b", Exposed.forward "b"),
       ("c", Exposed.wrapped "c")] "a" (Member.plain (Val.num 5)) (by decide) (by rfl)⟩
